import Mathlib

/-!
Shallow embedding of the DropBot analog measurement module
(src/src/analog.cpp, namespace dropbot::analog).

Modelling conventions:

* The ADC hardware is modelled by an environment stream of raw readings,
  one per analogRead call; per the hardware contract a raw reading lies in
  [0, 65535], which the model enforces by reducing each stream value
  mod 65536.  The pin argument selects a physical channel and does not
  affect the modelled value stream; it is kept in each signature for
  fidelity to the C++ source.
* C float/double arithmetic is modelled exactly over the rationals; the
  decimal constants of the source (3.3, 1.2, 1.195, 583.0904, 0.719, ...)
  are carried as exact rationals.
* Machine integers are modelled as Nat / Int with explicit reductions
  mod 2 ^ w where a C conversion narrows.
* Fallible operations return Option: an out-of-bounds vector access, or a
  NaN reaching an integer conversion, is modelled as none.
* Mutable process state (the ADC reference-source mode, the cached high
  voltage high_voltage_, and the read cursor) is threaded explicitly
  through an AdcState record.  The log field records the reference mode
  in effect at each performed ADC read, in order.
-/

namespace Dropbot.Analog

/-- ADC reference-voltage source selector (the argument of the Arduino
analogReference primitive): the default/external reference, or the internal
low-noise reference. -/
inductive RefMode where
  | default
  | internal
deriving DecidableEq, Repr

/-- Explicit process state threaded through every routine: the raw-reading
environment stream, the number of ADC reads performed so far, the current
reference mode, the process-wide cached high voltage (float high_voltage_
in the source), and a trace of the reference mode in effect at each read. -/
structure AdcState where
  reads : Nat → Nat
  t : Nat
  refMode : RefMode
  high_voltage_ : ℚ
  log : List RefMode

/-- State at process start: no reads performed, default reference mode, and
the cached high voltage initialized to 0 (float high_voltage_ = 0;). -/
def initState (reads : Nat → Nat) : AdcState :=
  { reads := reads, t := 0, refMode := RefMode.default,
    high_voltage_ := 0, log := [] }

/-- One call of the external analogRead primitive: returns the next raw
reading of the environment stream (reduced to the hardware range
[0, 65535]), advances the cursor and records the current reference mode. -/
def analogRead (s : AdcState) : Nat × AdcState :=
  (s.reads s.t % 65536,
   { s with t := s.t + 1, log := s.log ++ [s.refMode] })

/-- The external analogReference primitive: switches the ADC reference
source. -/
def analogReference (m : RefMode) (s : AdcState) : AdcState :=
  { s with refMode := m }

/-- Reading the cached high voltage (the variable high_voltage_) without
triggering a new sample. -/
def current_value (s : AdcState) : ℚ :=
  s.high_voltage_

/-- The list of raw readings produced by n consecutive analogRead calls
starting at cursor position t. -/
def sampleList (reads : Nat → Nat) : Nat → Nat → List Nat
  | _, 0 => []
  | t, n + 1 => (reads t % 65536) :: sampleList reads (t + 1) n

/-- Net state effect of performing n ADC reads: the cursor advances by n
and the log gains n entries at the current reference mode. -/
def advance (n : Nat) (s : AdcState) : AdcState :=
  { s with t := s.t + n, log := s.log ++ List.replicate n s.refMode }

/-- Loop body shared shape of analog_reads_simple: perform n reads and
collect them in acquisition order. -/
def readsLoop : Nat → AdcState → List Nat × AdcState
  | 0, s => ([], s)
  | n + 1, s =>
    let p := analogRead s
    let q := readsLoop n p.2
    (p.1 :: q.1, q.2)

/-- analog_reads_simple(pin, n_samples): acquire n_samples raw readings
into a vector, in order. -/
def analog_reads_simple (pin n_samples : Nat) (s : AdcState) :
    List Nat × AdcState :=
  readsLoop n_samples s

/-- The C round function (round half away from zero), on exact rationals. -/
def roundAway (q : ℚ) : ℤ :=
  if 0 ≤ q then ⌊q + 1 / 2⌋ else -⌊-q + 1 / 2⌋

/-- u16_percentile_diff(pin, n_samples, low_percentile, high_percentile):
sample, sort ascending, index by the rounded percentile positions and
subtract.  The C index computation (int)round(...) narrowed to uint16_t is
modelled by reducing the rounded integer mod 2 ^ 16; the uint16_t result of
the subtraction (performed in int) is modelled mod 2 ^ 16 likewise.  An
out-of-bounds vector access is undefined behavior in the source and is
modelled as none. -/
def u16_percentile_diff (pin n_samples : Nat)
    (low_percentile high_percentile : ℚ) (s : AdcState) :
    Option Nat × AdcState :=
  let r := analog_reads_simple pin n_samples s
  let result := r.1.insertionSort (· ≤ ·)
  let high_i : Nat :=
    ((roundAway ((high_percentile / 100) * n_samples)) % 65536).toNat
  let low_i : Nat :=
    ((roundAway ((low_percentile / 100) * n_samples)) % 65536).toNat
  match result.get? high_i, result.get? low_i with
  | some a, some b => (some ((((a : ℤ) - (b : ℤ)) % 65536).toNat), r.2)
  | _, _ => (none, r.2)

/-- high_voltage(): one raw sample from the HV feedback channel, scaled by
the reference voltage and the R8/R9 divider, halved, cached into
high_voltage_ and returned. -/
def high_voltage (s : AdcState) : ℚ × AdcState :=
  let p := analogRead s
  let hv_fb : ℚ := ((p.1 : ℚ) / 65536) * (33 / 10)
  let R8 : ℚ := 2000000
  let R9 : ℚ := 20000
  let hv_peak_to_peak : ℚ := hv_fb * R8 / R9
  let hv : ℚ := (1 / 2) * hv_peak_to_peak
  (hv, { p.2 with high_voltage_ := hv })

/-- Summation loop shared by measure_temperature and measure_aref:
accumulate n raw readings into a running sum (uint32_t in the source; 255
readings of at most 65535 cannot overflow 2 ^ 32, so the sum is exact). -/
def sumLoop : Nat → Nat → AdcState → Nat × AdcState
  | 0, sum, s => (sum, s)
  | n + 1, sum, s =>
    let p := analogRead s
    sumLoop n (sum + p.1) p.2

/-- measure_temperature(): switch the reference to internal, sum 255 raw
readings of channel 38, switch the reference back to default, and convert
the mean to degrees Celsius. -/
def measure_temperature (s : AdcState) : ℚ × AdcState :=
  let s0 := analogReference RefMode.internal s
  let p := sumLoop 255 0 s0
  let s1 := analogReference RefMode.default p.2
  let voltage : ℚ := (p.1 : ℚ) / 255 / 65535 * (12 / 10)
  (25 + (5830904 / 10000) * (719 / 1000 - voltage), s1)

/-- measure_aref(): sum 255 raw readings of channel 39 (no reference-mode
change in the source) and return 1.195 * 65535.0 / (float)sum * 255.0. -/
def measure_aref (s : AdcState) : ℚ × AdcState :=
  let p := sumLoop 255 0 s
  ((1195 / 1000) * 65535 / (p.1 : ℚ) * 255, p.2)

/-- Running-maximum loop of read_max: max_value starts at 0 and is replaced
whenever a fresh reading exceeds it. -/
def read_maxLoop : Nat → Nat → AdcState → Nat × AdcState
  | 0, max_value, s => (max_value, s)
  | n + 1, max_value, s =>
    let p := analogRead s
    read_maxLoop n (if max_value < p.1 then p.1 else max_value) p.2

/-- read_max(pin, n): largest of n fresh raw readings (0 when n = 0). -/
def read_max (pin n : Nat) (s : AdcState) : Nat × AdcState :=
  read_maxLoop n 0 s

/-- Running sum-of-squares loop of read_rms.  The source squares each
uint16_t reading in 32-bit signed int arithmetic and accumulates into a
float; the model keeps the exact integer sum of squares.  The signed
squaring overflows (undefined behavior) for any reading above 46340
(see the C10 bound), so theorems about the accumulated value carry the
precondition that every sample is at most 46340; the state components
(cursor, log, cache) are faithful regardless. -/
def read_rmsLoop : Nat → Nat → AdcState → Nat × AdcState
  | 0, sum2, s => (sum2, s)
  | n + 1, sum2, s =>
    let p := analogRead s
    read_rmsLoop n (sum2 + p.1 * p.1) p.2

/-- read_rms(pin, n): accumulate the sum of squares of n fresh readings and
return sqrt(sum2 / n) narrowed to the uint16_t return type, i.e. the
integer part of the square root of the mean square.  For n = 0 the source
divides 0.0f by 0, producing NaN, and converting NaN to uint16_t is
undefined behavior: modelled as none. -/
def read_rms (pin n : Nat) (s : AdcState) : Option Nat × AdcState :=
  let p := read_rmsLoop n 0 s
  (if n = 0 then none else some (Nat.sqrt (p.1 / n)), p.2)

/-- measure_output_current(n): running maximum of n readings of channel 2,
scaled to volts and divided by the 51e3 / 5.1e3 gain. -/
def measure_output_current (n : Nat) (s : AdcState) : ℚ × AdcState :=
  let p := read_max 2 n s
  (((p.1 : ℚ) / 65536 * (33 / 10)) / (51000 / 5100 * 1), p.2)

/-- measure_output_current_rms(n): running RMS of n readings of channel 2,
scaled like measure_output_current; the undefined n = 0 result of read_rms
propagates. -/
def measure_output_current_rms (n : Nat) (s : AdcState) :
    Option ℚ × AdcState :=
  let p := read_rms 2 n s
  (p.1.map (fun v => ((v : ℚ) / 65536 * (33 / 10)) / (51000 / 5100 * 1)), p.2)

/-- measure_input_current(n): running maximum of n readings of channel 3,
scaled to volts and divided by 0.03. -/
def measure_input_current (n : Nat) (s : AdcState) : ℚ × AdcState :=
  let p := read_max 3 n s
  (((p.1 : ℚ) / 65536 * (33 / 10)) / (3 / 100), p.2)

/-! ### Infrastructure lemmas: loops as functions of the sample list -/

theorem advance_zero (s : AdcState) : advance 0 s = s := by
  simp [advance]

theorem advance_succ (n : Nat) (s : AdcState) :
    advance n (analogRead s).2 = advance (n + 1) s := by
  simp only [advance, analogRead, List.replicate_succ, List.append_assoc,
    List.singleton_append]
  congr 1
  omega

theorem sampleList_length (reads : Nat → Nat) :
    ∀ (t n : Nat), (sampleList reads t n).length = n
  | _, 0 => rfl
  | t, n + 1 => by
    simp [sampleList, sampleList_length reads (t + 1) n]

theorem sampleList_mem {reads : Nat → Nat} :
    ∀ {t n v : Nat}, v ∈ sampleList reads t n →
      ∃ i, i < n ∧ v = reads (t + i) % 65536 := by
  intro t n
  induction n generalizing t with
  | zero => intro v h; simp [sampleList] at h
  | succ n ih =>
    intro v h
    rw [sampleList] at h
    rcases List.mem_cons.mp h with h1 | h2
    · exact ⟨0, Nat.succ_pos n, by simpa using h1⟩
    · obtain ⟨i, hi, hv⟩ := ih h2
      refine ⟨i + 1, by omega, ?_⟩
      rw [hv, show t + 1 + i = t + (i + 1) from by omega]

theorem sampleList_lt_65536 {reads : Nat → Nat} {t n v : Nat}
    (h : v ∈ sampleList reads t n) : v < 65536 := by
  obtain ⟨i, _, hv⟩ := sampleList_mem h
  rw [hv]
  exact Nat.mod_lt _ (by omega)

theorem readsLoop_eq : ∀ (n : Nat) (s : AdcState),
    readsLoop n s = (sampleList s.reads s.t n, advance n s)
  | 0, s => by
    simp [readsLoop, sampleList, advance_zero]
  | n + 1, s => by
    simp only [readsLoop, readsLoop_eq n, advance_succ]
    rfl

theorem sumLoop_eq : ∀ (n acc : Nat) (s : AdcState),
    sumLoop n acc s = (acc + (sampleList s.reads s.t n).sum, advance n s)
  | 0, acc, s => by
    simp [sumLoop, sampleList, advance_zero]
  | n + 1, acc, s => by
    simp only [sumLoop, sumLoop_eq n, advance_succ]
    simp only [analogRead, sampleList, List.sum_cons]
    rw [Nat.add_assoc]

theorem read_maxLoop_eq : ∀ (n m : Nat) (s : AdcState),
    read_maxLoop n m s =
      ((sampleList s.reads s.t n).foldl (fun a v => if a < v then v else a) m,
       advance n s)
  | 0, m, s => by
    simp [read_maxLoop, sampleList, advance_zero]
  | n + 1, m, s => by
    simp only [read_maxLoop, read_maxLoop_eq n, advance_succ]
    simp only [analogRead, sampleList, List.foldl_cons]

theorem read_rmsLoop_eq : ∀ (n acc : Nat) (s : AdcState),
    read_rmsLoop n acc s =
      (acc + ((sampleList s.reads s.t n).map (fun v => v * v)).sum,
       advance n s)
  | 0, acc, s => by
    simp [read_rmsLoop, sampleList, advance_zero]
  | n + 1, acc, s => by
    simp only [read_rmsLoop, read_rmsLoop_eq n, advance_succ]
    simp only [analogRead, sampleList, List.map_cons, List.sum_cons]
    rw [Nat.add_assoc]

/-! ### Percentile index computation -/

theorem roundAway_nonneg_eq (q : ℚ) (h : 0 ≤ q) : roundAway q = ⌊q + 1 / 2⌋ := by
  rw [roundAway, if_pos h]

theorem high_index_75 (n : Nat) (h16 : n ≤ 65535) :
    ((roundAway ((75 / 100 : ℚ) * n)) % 65536).toNat = (3 * n + 2) / 4 := by
  have h0 : (0 : ℚ) ≤ (75 / 100 : ℚ) * n := by positivity
  rw [roundAway_nonneg_eq _ h0]
  have he : (75 / 100 : ℚ) * n + 1 / 2 =
      (((3 * n + 2 : ℕ) : ℚ)) / ((4 : ℕ) : ℚ) := by
    push_cast
    ring
  rw [he, Rat.floor_natCast_div_natCast]
  omega

theorem low_index_25 (n : Nat) (h16 : n ≤ 65535) :
    ((roundAway ((25 / 100 : ℚ) * n)) % 65536).toNat = (n + 2) / 4 := by
  have h0 : (0 : ℚ) ≤ (25 / 100 : ℚ) * n := by positivity
  rw [roundAway_nonneg_eq _ h0]
  have he : (25 / 100 : ℚ) * n + 1 / 2 =
      (((n + 2 : ℕ) : ℚ)) / ((4 : ℕ) : ℚ) := by
    push_cast
    ring
  rw [he, Rat.floor_natCast_div_natCast]
  omega

theorem index_100 (n : Nat) (h16 : n ≤ 65535) :
    ((roundAway ((100 / 100 : ℚ) * n)) % 65536).toNat = n := by
  have h0 : (0 : ℚ) ≤ (100 / 100 : ℚ) * n := by positivity
  rw [roundAway_nonneg_eq _ h0]
  have he : (100 / 100 : ℚ) * n + 1 / 2 =
      (((2 * n + 1 : ℕ) : ℚ)) / ((2 : ℕ) : ℚ) := by
    push_cast
    ring
  rw [he, Rat.floor_natCast_div_natCast]
  omega

/-! ### Sorted-list helpers -/

theorem sorted_getD_mono {l : List Nat} (hs : List.Sorted (· ≤ ·) l)
    {i j : Nat} (hij : i ≤ j) (hj : j < l.length) :
    l.getD i 0 ≤ l.getD j 0 := by
  have hi : i < l.length := lt_of_le_of_lt hij hj
  rw [List.getD_eq_get l 0 hi, List.getD_eq_get l 0 hj]
  exact hs.rel_get_of_le hij

theorem sortedSamples_getD_lt {reads : Nat → Nat} {t n i : Nat}
    (hi : i < n) :
    ((sampleList reads t n).insertionSort (· ≤ ·)).getD i 0 < 65536 := by
  have hlen : ((sampleList reads t n).insertionSort (· ≤ ·)).length = n := by
    rw [List.length_insertionSort, sampleList_length]
  have hi' : i < ((sampleList reads t n).insertionSort (· ≤ ·)).length := by
    omega
  rw [List.getD_eq_get _ 0 hi']
  have hmem := List.get_mem ((sampleList reads t n).insertionSort (· ≤ ·)) i hi'
  exact sampleList_lt_65536 ((List.mem_insertionSort _).mp hmem)

/-- Evaluation of u16_percentile_diff when the two rounded indices fall
inside the sorted sample vector: the returned value is the plain difference
of the selected order statistics (the uint16_t narrowing does not wrap
because the vector is sorted ascending). -/
theorem u16_percentile_diff_eval (pin n : Nat) (lp hp : ℚ) (s : AdcState)
    (hiN loN : Nat)
    (hhi : ((roundAway ((hp / 100) * n)) % 65536).toNat = hiN)
    (hlo : ((roundAway ((lp / 100) * n)) % 65536).toNat = loN)
    (hhiB : hiN < n) (hloB : loN ≤ hiN) :
    (u16_percentile_diff pin n lp hp s).1 =
      some ((((sampleList s.reads s.t n).insertionSort (· ≤ ·)).getD hiN 0)
        - (((sampleList s.reads s.t n).insertionSort (· ≤ ·)).getD loN 0)) ∧
    (u16_percentile_diff pin n lp hp s).2 = advance n s := by
  have hlen : ((sampleList s.reads s.t n).insertionSort (· ≤ ·)).length = n := by
    rw [List.length_insertionSort, sampleList_length]
  have hhi' : hiN < ((sampleList s.reads s.t n).insertionSort (· ≤ ·)).length := by
    omega
  have hlo' : loN < ((sampleList s.reads s.t n).insertionSort (· ≤ ·)).length := by
    omega
  have hga : ((sampleList s.reads s.t n).insertionSort (· ≤ ·)).get? hiN =
      some (((sampleList s.reads s.t n).insertionSort (· ≤ ·)).getD hiN 0) := by
    rw [List.get?_eq_get hhi', List.getD_eq_get _ 0 hhi']
  have hgb : ((sampleList s.reads s.t n).insertionSort (· ≤ ·)).get? loN =
      some (((sampleList s.reads s.t n).insertionSort (· ≤ ·)).getD loN 0) := by
    rw [List.get?_eq_get hlo', List.getD_eq_get _ 0 hlo']
  have hmono := sorted_getD_mono
    (List.sorted_insertionSort (· ≤ ·) (sampleList s.reads s.t n)) hloB hhi'
  have hbound := @sortedSamples_getD_lt s.reads s.t n hiN hhiB
  simp only [u16_percentile_diff, analog_reads_simple, readsLoop_eq, hhi, hlo,
    hga, hgb]
  refine ⟨?_, trivial⟩
  congr 1
  omega

/-- Evaluation of u16_percentile_diff when the rounded high index falls at
or beyond the end of the sorted sample vector: the access is out of bounds
and the result is undefined (none). -/
theorem u16_percentile_diff_oob (pin n : Nat) (lp hp : ℚ) (s : AdcState)
    (hiN : Nat)
    (hhi : ((roundAway ((hp / 100) * n)) % 65536).toNat = hiN)
    (hhiB : n ≤ hiN) :
    (u16_percentile_diff pin n lp hp s).1 = none := by
  have hlen : ((sampleList s.reads s.t n).insertionSort (· ≤ ·)).length = n := by
    rw [List.length_insertionSort, sampleList_length]
  have hga : ((sampleList s.reads s.t n).insertionSort (· ≤ ·)).get? hiN = none := by
    rw [List.get?_eq_none]
    omega
  simp only [u16_percentile_diff, analog_reads_simple, readsLoop_eq, hhi, hga]

theorem roundAway_mono {p q : ℚ} (hp : 0 ≤ p) (hpq : p ≤ q) :
    roundAway p ≤ roundAway q := by
  rw [roundAway_nonneg_eq p hp, roundAway_nonneg_eq q (hp.trans hpq)]
  exact Int.floor_mono (by linarith)

theorem roundAway_nonneg {q : ℚ} (h : 0 ≤ q) : 0 ≤ roundAway q := by
  rw [roundAway_nonneg_eq q h]
  exact Int.le_floor.mpr (by push_cast; linarith)

/-! ### Claim C1 -/

/-- C1 (amended): for every pin and every n with 3 ≤ n ≤ 65535 (the uint16_t
argument range; for n = 1 and n = 2 the rounded 75th-percentile index falls
out of bounds), the percentile-difference aggregator with percentiles
(25, 75) on the acquired sample sequence S of length n returns
sorted(S)[round(0.75 n)] - sorted(S)[round(0.25 n)], with
round(0.75 n) = (3n + 2) / 4 and round(0.25 n) = (n + 2) / 4. -/
theorem percentile_diff_iqr_formula (pin n : Nat) (s : AdcState)
    (h3 : 3 ≤ n) (h16 : n ≤ 65535) :
    (u16_percentile_diff pin n 25 75 s).1 =
      some ((((sampleList s.reads s.t n).insertionSort (· ≤ ·)).getD
          ((3 * n + 2) / 4) 0)
        - (((sampleList s.reads s.t n).insertionSort (· ≤ ·)).getD
          ((n + 2) / 4) 0)) :=
  (u16_percentile_diff_eval pin n 25 75 s _ _ (high_index_75 n h16)
    (low_index_25 n h16) (by omega) (by omega)).1

/-- C1 counterexample: at n = 1 (the claim asserts every n ≥ 1) with
percentiles (25, 75), the rounded high index is round(0.75) = 1, one past
the end of the one-element sample vector, so the access is out of bounds
and no difference value is returned. -/
theorem percentile_diff_iqr_cex_n1 :
    (u16_percentile_diff 0 1 25 75 (initState (fun _ => 10))).1 = none :=
  u16_percentile_diff_oob 0 1 25 75 (initState (fun _ => 10)) _
    (high_index_75 1 (by norm_num)) (by norm_num)

/-- C1 witness: the spec scenario n = 4, S = [10, 20, 30, 40],
indices round(3) = 3 and round(1) = 1, result 40 - 20 = 20. -/
theorem percentile_diff_iqr_witness :
    3 ≤ 4 ∧ (u16_percentile_diff 0 4 25 75
      (initState (fun i => 10 * (i + 1)))).1 = some 20 := by
  refine ⟨by norm_num, ?_⟩
  have h := percentile_diff_iqr_formula 0 4
    (initState (fun i => 10 * (i + 1))) (by norm_num) (by norm_num)
  rw [h]
  rfl

/-! ### Claim C4 -/

/-- C4: for the percentile-difference aggregator, (a) whenever
0 ≤ low_percentile ≤ high_percentile ≤ 100 and both rounded indices lie
within [0, n-1], both accesses into the sorted sample vector are in bounds
and a difference value is returned; (b) for high_percentile = 100 the
computed high index equals n, one past the last valid position, and the
access is out of bounds (the routine performs no validation or
clamping). -/
theorem percentile_diff_index_bounds (pin n : Nat) (lowP highP : ℚ)
    (s : AdcState) :
    ((0 ≤ lowP → lowP ≤ highP → highP ≤ 100 → n ≤ 65535 →
        0 ≤ roundAway ((lowP / 100) * n) →
        roundAway ((lowP / 100) * n) < n →
        0 ≤ roundAway ((highP / 100) * n) →
        roundAway ((highP / 100) * n) < n →
        ∃ v, (u16_percentile_diff pin n lowP highP s).1 = some v)
      ∧ (highP = 100 → n ≤ 65535 →
        ((roundAway ((highP / 100) * n)) % 65536).toNat = n ∧
        (u16_percentile_diff pin n lowP highP s).1 = none)) := by
  constructor
  · intro hl0 hlh hh100 h16 hlo0 hlon hhi0 hhin
    have hmono : roundAway ((lowP / 100) * n) ≤
        roundAway ((highP / 100) * n) := by
      refine roundAway_mono ?_ ?_
      · positivity
      · gcongr
    refine ⟨_, (u16_percentile_diff_eval pin n lowP highP s
      ((roundAway ((highP / 100) * n)) % 65536).toNat
      ((roundAway ((lowP / 100) * n)) % 65536).toNat
      rfl rfl ?_ ?_).1⟩
    · omega
    · omega
  · intro hh100 h16
    subst hh100
    refine ⟨index_100 n h16, ?_⟩
    exact u16_percentile_diff_oob pin n lowP 100 s n (index_100 n h16)
      (le_refl n)

/-- C4 witness: at n = 4 with percentiles (25, 75) both indices (1 and 3)
are in bounds and a value is returned; with high percentile 100 the high
index is 4 = n and the access is out of bounds. -/
theorem percentile_diff_index_bounds_witness :
    (∃ v, (u16_percentile_diff 0 4 25 75
      (initState (fun i => 10 * (i + 1)))).1 = some v)
    ∧ (u16_percentile_diff 0 4 25 100
      (initState (fun i => 10 * (i + 1)))).1 = none := by
  have h25 : roundAway ((25 / 100 : ℚ) * ((4 : ℕ) : ℚ)) = 1 := by
    rw [roundAway_nonneg_eq _ (by norm_num)]
    rw [show (25 / 100 : ℚ) * ((4 : ℕ) : ℚ) + 1 / 2 =
      ((3 : ℕ) : ℚ) / ((2 : ℕ) : ℚ) from by push_cast; norm_num]
    rw [Rat.floor_natCast_div_natCast]
    norm_num
  have h75 : roundAway ((75 / 100 : ℚ) * ((4 : ℕ) : ℚ)) = 3 := by
    rw [roundAway_nonneg_eq _ (by norm_num)]
    rw [show (75 / 100 : ℚ) * ((4 : ℕ) : ℚ) + 1 / 2 =
      ((7 : ℕ) : ℚ) / ((2 : ℕ) : ℚ) from by push_cast; norm_num]
    rw [Rat.floor_natCast_div_natCast]
    norm_num
  constructor
  · exact (percentile_diff_index_bounds 0 4 25 75
      (initState (fun i => 10 * (i + 1)))).1
      (by norm_num) (by norm_num) (by norm_num) (by norm_num)
      (by rw [h25]; norm_num) (by rw [h25]; norm_num)
      (by rw [h75]; norm_num) (by rw [h75]; norm_num)
  · exact ((percentile_diff_index_bounds 0 4 25 100
      (initState (fun i => 10 * (i + 1)))).2 rfl (by norm_num)).2

/-! ### Claim C2 -/

theorem sqrt_eq_of_bounds {m r : Nat} (h1 : r * r ≤ m)
    (h2 : m < (r + 1) * (r + 1)) : Nat.sqrt m = r :=
  Nat.le_antisymm (Nat.lt_succ_iff.mp (Nat.sqrt_lt.mpr h2))
    (Nat.le_sqrt.mpr h1)

/-- C2 (amended): for n ≥ 1, and provided every acquired sample is at most
46340 (so that the source's 32-bit signed squaring does not overflow —
beyond that the source is undefined), read_rms draws n fresh samples,
accumulates the sum of their squares, and returns sqrt(sum_of_squares / n)
truncated to its uint16_t return type: the returned value r is the integer
part of the square root of the mean square, characterized by
r² · n ≤ sum_of_squares < (r+1)² · n. -/
theorem read_rms_truncated_sqrt (pin n : Nat) (s : AdcState) (hn : 1 ≤ n)
    (hb : ∀ v ∈ sampleList s.reads s.t n, v ≤ 46340) :
    (read_rms pin n s).1 =
      some (Nat.sqrt
        (((sampleList s.reads s.t n).map (fun v => v * v)).sum / n)) ∧
    ∀ r, (read_rms pin n s).1 = some r →
      r * r * n ≤ ((sampleList s.reads s.t n).map (fun v => v * v)).sum ∧
      ((sampleList s.reads s.t n).map (fun v => v * v)).sum <
        (r + 1) * (r + 1) * n := by
  have hS : (read_rmsLoop n 0 s).1 =
      ((sampleList s.reads s.t n).map (fun v => v * v)).sum := by
    rw [read_rmsLoop_eq]
    exact Nat.zero_add _
  have h1 : (read_rms pin n s).1 =
      some (Nat.sqrt
        (((sampleList s.reads s.t n).map (fun v => v * v)).sum / n)) := by
    simp only [read_rms]
    rw [if_neg (by omega), hS]
  refine ⟨h1, ?_⟩
  intro r hr
  rw [h1, Option.some_inj] at hr
  subst hr
  constructor
  · calc Nat.sqrt (((sampleList s.reads s.t n).map (fun v => v * v)).sum / n) *
        Nat.sqrt (((sampleList s.reads s.t n).map (fun v => v * v)).sum / n) * n
        ≤ ((sampleList s.reads s.t n).map (fun v => v * v)).sum / n * n :=
          Nat.mul_le_mul_right n (Nat.sqrt_le _)
      _ ≤ ((sampleList s.reads s.t n).map (fun v => v * v)).sum :=
          Nat.div_mul_le_self _ n
  · have hlt : ((sampleList s.reads s.t n).map (fun v => v * v)).sum / n <
        (Nat.sqrt (((sampleList s.reads s.t n).map (fun v => v * v)).sum / n) + 1) *
        (Nat.sqrt (((sampleList s.reads s.t n).map (fun v => v * v)).sum / n) + 1) := by
      simpa [Nat.succ_eq_add_one] using
        Nat.lt_succ_sqrt (((sampleList s.reads s.t n).map (fun v => v * v)).sum / n)
    exact (Nat.div_lt_iff_lt_mul (by omega)).mp hlt

/-- C2 counterexample: over the sample stream [3, 4] with n = 2 the source
returns the uint16_t value 3, an integer-truncated value, and 3 is not
sqrt(12.5): its square 9 differs from (9 + 16) / 2. -/
theorem read_rms_truncation_cex :
    (read_rms 2 2 (initState (fun i => if i = 0 then 3 else 4))).1 = some 3 ∧
    (3 : ℚ) * 3 ≠ ((9 : ℚ) + 16) / 2 := by
  constructor
  · have h25 : (read_rmsLoop 2 0
        (initState (fun i => if i = 0 then 3 else 4))).1 = 25 := rfl
    simp only [read_rms, h25]
    rw [if_neg (by omega)]
    rw [show (25 : ℕ) / 2 = 12 from rfl]
    rw [@sqrt_eq_of_bounds 12 3 (by norm_num) (by norm_num)]
  · norm_num

/-- C2 witness: the spec scenario stream [3, 4], n = 2; both samples are
within the no-overflow bound, the sum of squares is 25, the mean square
25 / 2 truncates to 12, and the routine returns ⌊sqrt 12⌋ = 3. -/
theorem read_rms_truncated_sqrt_witness :
    1 ≤ 2 ∧
    (∀ v ∈ sampleList (initState (fun i => if i = 0 then 3 else 4)).reads
      (initState (fun i => if i = 0 then 3 else 4)).t 2, v ≤ 46340) ∧
    (read_rms 2 2
      (initState (fun i => if i = 0 then 3 else 4))).1 = some 3 := by
  refine ⟨by norm_num, by decide, ?_⟩
  have h := (read_rms_truncated_sqrt 2 2
    (initState (fun i => if i = 0 then 3 else 4)) (by norm_num)
    (by decide)).1
  rw [h]
  rw [show ((sampleList (initState (fun i => if i = 0 then 3 else 4)).reads
    (initState (fun i => if i = 0 then 3 else 4)).t 2).map
    (fun v => v * v)).sum / 2 = 12 from rfl]
  rw [@sqrt_eq_of_bounds 12 3 (by norm_num) (by norm_num)]

/-! ### Claim C5 -/

/-- C5 (amended): calling read_rms with n = 0 performs no ADC reads,
reaches the division sum2 / n with n = 0 (0.0f / 0 produces NaN in the
source) and converts the NaN to the uint16_t return type, which is
undefined behavior (modelled none); the routine has no typed error channel
and no guard rejects n = 0.  The process state is untouched. -/
theorem read_rms_zero_unguarded (pin : Nat) (s : AdcState) :
    (read_rms pin 0 s).1 = none ∧ (read_rms pin 0 s).2 = s :=
  ⟨rfl, rfl⟩

/-- C5 counterexample: at n = 0 the routine returns the undefined
NaN-derived result (none) rather than failing with a typed InvalidArgument
error — no error value exists in its result type and the division by zero
is reached unguarded. -/
theorem read_rms_zero_cex :
    (read_rms 2 0 (initState (fun _ => 5))).1 = none := rfl

/-! ### Claim C3 -/

/-- C3 (amended): the temperature measurement switches the ADC reference to
the internal reference, performs all 255 of its reads under it, and sets
the reference back to default before returning; the reference-voltage
calibration (measure_aref) performs no reference-mode change at all: its
255 reads occur under whatever mode is current and the mode is unchanged on
return. -/
theorem reference_mode_scoping (s : AdcState) :
    (measure_temperature s).2.refMode = RefMode.default ∧
    (measure_temperature s).2.log =
      s.log ++ List.replicate 255 RefMode.internal ∧
    (measure_aref s).2.refMode = s.refMode ∧
    (measure_aref s).2.log = s.log ++ List.replicate 255 s.refMode := by
  refine ⟨rfl, ?_, ?_, ?_⟩
  · show (sumLoop 255 0 (analogReference RefMode.internal s)).2.log =
      s.log ++ List.replicate 255 RefMode.internal
    rw [sumLoop_eq]
    rfl
  · show (sumLoop 255 0 s).2.refMode = s.refMode
    rw [sumLoop_eq]
    rfl
  · show (sumLoop 255 0 s).2.log = s.log ++ List.replicate 255 s.refMode
    rw [sumLoop_eq]
    rfl

/-- C3 counterexample: starting from the default reference mode, all 255
reads of measure_aref occur under the default mode — never the internal
one, contradicting the claim that the reference is internal during every
sample read of its loop. -/
theorem measure_aref_no_internal_cex :
    (measure_aref (initState (fun _ => 0))).2.log =
      List.replicate 255 RefMode.default ∧
    RefMode.internal ∉ (measure_aref (initState (fun _ => 0))).2.log := by
  have h : (measure_aref (initState (fun _ => 0))).2.log =
      List.replicate 255 RefMode.default := by
    show (sumLoop 255 0 (initState (fun _ => 0))).2.log =
      List.replicate 255 RefMode.default
    rw [sumLoop_eq]
    rfl
  refine ⟨h, ?_⟩
  rw [h]
  intro hmem
  exact absurd (List.eq_of_mem_replicate hmem) (by decide)

/-! ### Claim C6 -/

/-- C6: for the raw reading R consumed from the HV feedback channel,
high_voltage returns 0.5 * ((R / 65536) * 3.3) * (2e6 / 20e3), writes
exactly the returned value into the process-wide cached high voltage, and
current_value read afterwards equals the returned value (reading the cache
performs no mutation, so the value is stable across repeated reads until
the routine runs again). -/
theorem high_voltage_formula_and_cache (s : AdcState) :
    (high_voltage s).1 =
      (1 / 2) * (((s.reads s.t % 65536 : ℕ) : ℚ) / 65536 * (33 / 10)) *
        (2000000 / 20000) ∧
    (high_voltage s).2.high_voltage_ = (high_voltage s).1 ∧
    current_value (high_voltage s).2 = (high_voltage s).1 := by
  refine ⟨?_, rfl, rfl⟩
  show (1 / 2 : ℚ) * (((s.reads s.t % 65536 : ℕ) : ℚ) / 65536 * (33 / 10) *
      2000000 / 20000) =
    (1 / 2) * (((s.reads s.t % 65536 : ℕ) : ℚ) / 65536 * (33 / 10)) *
      (2000000 / 20000)
  ring

/-! ### Claim C7 -/

/-- C7: for every n ≥ 1 the output-current (peak) measurement takes the
running maximum M of n fresh samples from current-sense channel A — equal
to the maximum found by an independent fold over the acquired sample
list — and returns (M / 65536 * 3.3) / (51e3 / 5.1e3). -/
theorem measure_output_current_formula (n : Nat) (s : AdcState)
    (hn : 1 ≤ n) :
    (read_max 2 n s).1 = (sampleList s.reads s.t n).foldl Nat.max 0 ∧
    (measure_output_current n s).1 =
      ((((sampleList s.reads s.t n).foldl Nat.max 0 : ℕ) : ℚ) / 65536 *
        (33 / 10)) / (51000 / 5100) := by
  have hfun : (fun (a v : ℕ) => if a < v then v else a) = Nat.max := by
    funext a v
    split
    · rename_i h
      exact (Nat.max_eq_right (Nat.le_of_lt h)).symm
    · rename_i h
      exact (Nat.max_eq_left (Nat.le_of_not_lt h)).symm
  have hmax : (read_max 2 n s).1 =
      (sampleList s.reads s.t n).foldl Nat.max 0 := by
    show (read_maxLoop n 0 s).1 = _
    rw [read_maxLoop_eq, hfun]
  refine ⟨hmax, ?_⟩
  show ((read_max 2 n s).1 : ℚ) / 65536 * (33 / 10) / (51000 / 5100 * 1) = _
  rw [hmax, mul_one]

/-- C7 witness: stream [32768, 100] with n = 2: the running maximum is
32768, the intermediate voltage 32768/65536*3.3 = 1.65 and the returned
current 0.165 A. -/
theorem measure_output_current_formula_witness :
    1 ≤ 2 ∧ (measure_output_current 2
      (initState (fun i => if i = 0 then 32768 else 100))).1 = 165 / 1000 := by
  refine ⟨by norm_num, ?_⟩
  have h := (measure_output_current_formula 2
    (initState (fun i => if i = 0 then 32768 else 100)) (by norm_num)).2
  rw [h]
  rw [show (sampleList
    (initState (fun i => if i = 0 then 32768 else 100)).reads
    (initState (fun i => if i = 0 then 32768 else 100)).t 2).foldl
    Nat.max 0 = 32768 from rfl]
  norm_num

/-! ### Claim C8 -/

/-- C8: the reference-voltage calibration reads 255 raw samples from the
internal reference channel and, when their sum (equivalently, their mean)
is nonzero, returns 1.195 * 65535 / mean where mean = sum / 255. -/
theorem measure_aref_formula (s : AdcState)
    (h : (sampleList s.reads s.t 255).sum ≠ 0) :
    (measure_aref s).1 =
      (1195 / 1000) * 65535 /
        (((sampleList s.reads s.t 255).sum : ℚ) / 255) ∧
    (measure_aref s).2.t = s.t + 255 := by
  have hS : (sumLoop 255 0 s).1 = (sampleList s.reads s.t 255).sum := by
    rw [sumLoop_eq]
    exact Nat.zero_add _
  constructor
  · show (1195 / 1000 : ℚ) * 65535 / ((sumLoop 255 0 s).1 : ℚ) * 255 = _
    rw [hS]
    have hQ : ((sampleList s.reads s.t 255).sum : ℚ) ≠ 0 :=
      Nat.cast_ne_zero.mpr h
    field_simp
  · show (sumLoop 255 0 s).2.t = s.t + 255
    rw [sumLoop_eq]
    rfl

set_option maxRecDepth 8000 in
/-- C8 witness: the constant stream 1 gives sum 255, mean 1, and
aref = 1.195 * 65535 = 78314.325 = 3132573/40. -/
theorem measure_aref_formula_witness :
    (sampleList (initState (fun _ => 1)).reads
      (initState (fun _ => 1)).t 255).sum ≠ 0 ∧
    (measure_aref (initState (fun _ => 1))).1 = 3132573 / 40 := by
  have hsum : (sampleList (initState (fun _ => 1)).reads
      (initState (fun _ => 1)).t 255).sum = 255 := rfl
  refine ⟨by rw [hsum]; norm_num, ?_⟩
  have h := (measure_aref_formula (initState (fun _ => 1))
    (by rw [hsum]; norm_num)).1
  rw [h, hsum]
  norm_num

/-! ### Claim C9 -/

theorem u16_percentile_diff_snd (pin n : Nat) (lp hp : ℚ) (s : AdcState) :
    (u16_percentile_diff pin n lp hp s).2 = advance n s := by
  simp only [u16_percentile_diff, analog_reads_simple, readsLoop_eq]
  rcases h1 : ((sampleList s.reads s.t n).insertionSort (· ≤ ·)).get?
      (((roundAway ((hp / 100) * n)) % 65536).toNat) with _ | a <;>
    rcases h2 : ((sampleList s.reads s.t n).insertionSort (· ≤ ·)).get?
      (((roundAway ((lp / 100) * n)) % 65536).toNat) with _ | b <;>
    simp [h1, h2]

set_option maxRecDepth 8000 in
/-- C9: the process-wide cached high voltage is written only by the
high-voltage routine: it starts at 0 at process start, and every other
exported routine — sampling, percentile difference, temperature,
reference-voltage calibration, running maximum, running RMS, and all three
current measurements — leaves its value unchanged. -/
theorem cache_only_written_by_high_voltage (reads : Nat → Nat)
    (pin n : Nat) (lowP highP : ℚ) (s : AdcState) :
    (initState reads).high_voltage_ = 0 ∧
    (analog_reads_simple pin n s).2.high_voltage_ = s.high_voltage_ ∧
    (u16_percentile_diff pin n lowP highP s).2.high_voltage_ =
      s.high_voltage_ ∧
    (measure_temperature s).2.high_voltage_ = s.high_voltage_ ∧
    (measure_aref s).2.high_voltage_ = s.high_voltage_ ∧
    (read_max pin n s).2.high_voltage_ = s.high_voltage_ ∧
    (read_rms pin n s).2.high_voltage_ = s.high_voltage_ ∧
    (measure_output_current n s).2.high_voltage_ = s.high_voltage_ ∧
    (measure_output_current_rms n s).2.high_voltage_ = s.high_voltage_ ∧
    (measure_input_current n s).2.high_voltage_ = s.high_voltage_ := by
  refine ⟨rfl, ?_, ?_, ?_, ?_, ?_, ?_, ?_, ?_, ?_⟩
  · show (readsLoop n s).2.high_voltage_ = s.high_voltage_
    rw [readsLoop_eq]
    rfl
  · rw [u16_percentile_diff_snd]
    rfl
  · show (sumLoop 255 0 (analogReference RefMode.internal s)).2.high_voltage_ =
      s.high_voltage_
    rw [sumLoop_eq]
    rfl
  · show (sumLoop 255 0 s).2.high_voltage_ = s.high_voltage_
    rw [sumLoop_eq]
    rfl
  · show (read_maxLoop n 0 s).2.high_voltage_ = s.high_voltage_
    rw [read_maxLoop_eq]
    rfl
  · show (read_rmsLoop n 0 s).2.high_voltage_ = s.high_voltage_
    rw [read_rmsLoop_eq]
    rfl
  · show (read_maxLoop n 0 s).2.high_voltage_ = s.high_voltage_
    rw [read_maxLoop_eq]
    rfl
  · show (read_rmsLoop n 0 s).2.high_voltage_ = s.high_voltage_
    rw [read_rmsLoop_eq]
    rfl
  · show (read_maxLoop n 0 s).2.high_voltage_ = s.high_voltage_
    rw [read_maxLoop_eq]
    rfl

/-! ### Claim C10 -/

/-- C10: in read_rms each sample is squared in 32-bit signed int
arithmetic before joining the accumulator; when every acquired sample is at
most 46340 no square exceeds 2^31 - 1 (so no squaring overflows the signed
32-bit intermediate) and the accumulated sum equals the exact integer sum
of squares of the sample list; the bound is tight: any sample value greater
than 46340 squares past the signed 32-bit range. -/
theorem read_rms_square_overflow_bound (pin n : Nat) (s : AdcState)
    (h : ∀ v ∈ sampleList s.reads s.t n, v ≤ 46340) :
    (∀ v ∈ sampleList s.reads s.t n, v * v ≤ 2 ^ 31 - 1) ∧
    (read_rmsLoop n 0 s).1 =
      ((sampleList s.reads s.t n).map (fun v => v * v)).sum ∧
    (∀ v : ℕ, 46340 < v → 2 ^ 31 - 1 < v * v) := by
  refine ⟨?_, ?_, ?_⟩
  · intro v hv
    have hb := h v hv
    calc v * v ≤ 46340 * 46340 := Nat.mul_le_mul hb hb
      _ ≤ 2 ^ 31 - 1 := by norm_num
  · rw [read_rmsLoop_eq]
    exact Nat.zero_add _
  · intro v hv
    have h46341 : 46341 ≤ v := hv
    calc (2 ^ 31 - 1 : ℕ) < 46341 * 46341 := by norm_num
      _ ≤ v * v := Nat.mul_le_mul h46341 h46341

/-- C10 witness: stream [46340, 3] with n = 2: both samples are within the
bound, both squares stay within 2^31 - 1, and the accumulator holds the
exact sum of squares 46340² + 3² = 2147395609. -/
theorem read_rms_square_overflow_bound_witness :
    (∀ v ∈ sampleList (initState (fun i => if i = 0 then 46340 else 3)).reads
      (initState (fun i => if i = 0 then 46340 else 3)).t 2, v ≤ 46340) ∧
    (read_rmsLoop 2 0 (initState (fun i => if i = 0 then 46340 else 3))).1 =
      ((sampleList (initState (fun i => if i = 0 then 46340 else 3)).reads
        (initState (fun i => if i = 0 then 46340 else 3)).t 2).map
        (fun v => v * v)).sum := by
  have hh : ∀ v ∈ sampleList
      (initState (fun i => if i = 0 then 46340 else 3)).reads
      (initState (fun i => if i = 0 then 46340 else 3)).t 2,
      v ≤ 46340 := by decide
  exact ⟨hh, (read_rms_square_overflow_bound 2 2
    (initState (fun i => if i = 0 then 46340 else 3)) hh).2.1⟩

end Dropbot.Analog
